import Mathlib

/-!
Verification of the Status & Location Inference Engine of the `usn` fleet
tracker (`fleet_scraper.py`).  Text is modelled as `List Char`; Python string
operations (`in`, `rfind`, `startswith`, `strip`, `split('\n')`,
`re.findall`) are embedded as executable functions on `List Char`.
-/

set_option maxRecDepth 100000

namespace Usn

/-- Python's `str.lower()` restricted to ASCII, as used on the scraped text. -/
def lower (l : List Char) : List Char := l.map Char.toLower

/-- The whitespace class of Python's `str.strip()` and `\s` (ASCII part). -/
def pyWs (c : Char) : Bool :=
  c = ' ' || c = '\t' || c = '\n' || c = '\r' || c = '\x0b' || c = '\x0c'

/-- Python `str.strip()`: remove leading and trailing whitespace. -/
def strip (l : List Char) : List Char :=
  ((l.dropWhile pyWs).reverse.dropWhile pyWs).reverse

/-- Python's `needle in haystack` substring test. -/
def substr (p : List Char) : List Char → Bool
  | [] => p.isEmpty
  | c :: cs => p.isPrefixOf (c :: cs) || substr p cs

/-- Helper for `rfind`: the largest index `≤ i` at which `p` starts in `t`. -/
def rfindFrom (p t : List Char) : Nat → Option Nat
  | 0 => if p.isPrefixOf t then some 0 else none
  | i + 1 => if p.isPrefixOf (t.drop (i + 1)) then some (i + 1) else rfindFrom p t i

/-- Python `str.rfind` (successful case): index of the last occurrence. -/
def rfind (p t : List Char) : Option Nat := rfindFrom p t t.length

/-- Python `str.rfind` with its `-1` failure convention. -/
def rfindI (p t : List Char) : Int :=
  match rfind p t with
  | some i => (i : Int)
  | none => -1

/-- The regex `202[3-7]` matched at the start of a character list
    (used both by `re.findall(r'(202[3-7])', ...)` and by the anchored
    `re.search(r'^(202[3-7])', line)`). -/
def yearTok (l : List Char) : Option (List Char) :=
  match l with
  | '2' :: '0' :: '2' :: c :: _ =>
      if '3' ≤ c ∧ c ≤ '7' then some ['2', '0', '2', c] else none
  | _ => none

/-- Fuel-driven scan for `re.findall(r'(202[3-7])', block)`: left-to-right,
    non-overlapping (a match consumes its four characters).  The fuel bounds
    the number of scan steps; `l.length` is always enough. -/
def findYearsAux : Nat → List Char → List (List Char)
  | 0, _ => []
  | _ + 1, [] => []
  | fuel + 1, c :: cs =>
    match yearTok (c :: cs) with
    | some y => y :: findYearsAux fuel (cs.drop 3)
    | none => findYearsAux fuel cs

/-- `re.findall(r'(202[3-7])', block)`. -/
def findYears (l : List Char) : List (List Char) := findYearsAux l.length l

/-- Python `"..."​.split('\n')`. -/
def splitOnNl : List Char → List (List Char)
  | [] => [[]]
  | c :: cs =>
    if c = '\n' then [] :: splitOnNl cs
    else
      match splitOnNl cs with
      | [] => [[c]]
      | l :: ls => (c :: l) :: ls

/-- String constants from `parse_status_entry`. -/
def unknownYear : List Char := "Unknown".data

def noStatus : List Char := "No recent status found.".data

def primaryYears : List (List Char) := ["2025".data, "2026".data, "2027".data]

def year2024 : List Char := "2024".data

/-- The initial "current year" computed by `parse_status_entry`:
    prefer 2025–2027, then 2024, then the last year token found. -/
def currentYear (block : List Char) : List Char :=
  let yearsFound := findYears block
  if yearsFound.isEmpty then unknownYear
  else
    let priorityYears := yearsFound.filter (fun y => primaryYears.contains y)
    let priorityYears :=
      if priorityYears.isEmpty then yearsFound.filter (fun y => y == year2024)
      else priorityYears
    match priorityYears.getLast? with
    | some y => y
    | none => (yearsFound.getLast?).getD unknownYear

/-- An annotated line: `{'text': line, 'year': running_year}`. -/
structure Entry where
  text : List Char
  year : List Char
deriving DecidableEq, Repr

/-- The loop producing `processed_lines`: a running year is updated whenever a
    line starts with a year token in the restricted range. -/
def annotate (running : List Char) : List (List Char) → List Entry
  | [] => []
  | line :: rest =>
    match yearTok line with
    | some y => { text := line, year := y } :: annotate y rest
    | none => { text := line, year := running } :: annotate running rest

/-- `processed_lines` for a text block. -/
def processedLines (block : List Char) : List Entry :=
  annotate (currentYear block) (splitOnNl block)

/-- The activity-keyword vocabulary of `parse_status_entry` (fleet scraper). -/
def activityKeywords : List (List Char) :=
  ["moored".data, "anchored".data, "underway".data, "arrived".data,
   "departed".data, "transited".data, "operations".data, "returned".data,
   "participated".data, "conducted".data, "moved to".data, "visited".data,
   "pulled into".data, "sea trials".data, "flight deck".data,
   "undocked".data, "homeport".data, "recently".data]

/-- Does the lower-cased line contain an activity keyword
    (`any(k in text_lower for k in keywords)`)? -/
def hasActivityKw (tl : List Char) : Bool :=
  activityKeywords.any (fun k => substr k tl)

/-- The low-value test
    `text_lower.strip().startswith("from ") and " - " in text_lower`. -/
def lowValue (tl : List Char) : Bool :=
  "from ".data.isPrefixOf (strip tl) && substr " - ".data tl

/-- One reverse scan of `parse_status_entry`, parameterised by the year test
    (`year in allowed_years` for the primary pass, `year == "2024"` for the
    fallback pass); the input list is already reversed. -/
def scanFor (yearOk : List Char → Bool) : List Entry → Option (List Char × List Char)
  | [] => none
  | e :: rest =>
    let tl := lower e.text
    if yearOk e.year && hasActivityKw tl then
      if lowValue tl then scanFor yearOk rest
      else some (e.year, e.text)
    else scanFor yearOk rest

/-- The year test of the primary pass: `year in ['2025', '2026', '2027']`. -/
def primaryYearOk (y : List Char) : Bool := primaryYears.contains y

/-- The year test of the fallback pass: `year == "2024"`. -/
def fallbackYearOk (y : List Char) : Bool := y == year2024

/-- `parse_status_entry` of `fleet_scraper.py`. -/
def parse_status_entry (block : List Char) : List Char × List Char :=
  let pls := processedLines block
  match scanFor primaryYearOk pls.reverse with
  | some r => r
  | none =>
    match scanFor fallbackYearOk pls.reverse with
    | some r => r
    | none => (currentYear block, noStatus)

/-! ### Location Classifier (`categorize_location`, fleet scraper) -/

/-- The ordered `LOCATION_KEYWORDS` table of `fleet_scraper.py`. -/
def LOCATION_KEYWORDS : List (List Char × List (List Char)) :=
  [("Ponce".data, ["ponce".data, "port of ponce".data]),
   ("Okinawa".data, ["okinawa".data, "white beach".data, "east coast of okinawa".data]),
   ("Sasebo".data, ["sasebo".data, "juliet basin wharf".data]),
   ("Yokosuka".data, ["yokosuka".data]),
   ("Norfolk / Portsmouth".data,
     ["norfolk".data, "portsmouth".data, "virginia beach".data,
      "naval station norfolk".data, "pier 11".data, "pier 12".data,
      "pier 14".data, "bae systems shipyard".data, "nassco".data]),
   ("San Diego".data,
     ["san diego".data, "north island".data, "camp pendleton".data,
      "naval base san diego".data]),
   ("Bremerton / Kitsap".data,
     ["bremerton".data, "kitsap".data, "psns".data, "puget sound".data]),
   ("Newport News".data,
     ["newport news".data, "huntington ingalls".data, "outfitting berth".data]),
   ("Pearl Harbor".data, ["pearl harbor".data]),
   ("Mayport".data, ["mayport".data, "naval station mayport".data]),
   ("Everett".data, ["everett".data]),
   ("Pascagoula".data, ["pascagoula".data, "ingalls".data]),
   ("Guam".data, ["guam".data, "apra".data]),
   ("Singapore".data, ["singapore".data, "changi".data]),
   ("Bahrain".data, ["bahrain".data, "manama".data]),
   ("Dubai".data, ["dubai".data, "jebel ali".data]),
   ("Busan".data, ["busan".data]),
   ("Philippines".data, ["philippines".data, "manila".data, "subic".data]),
   ("Malaysia".data, ["malaysia".data, "klang".data]),
   ("Caribbean Sea".data,
     ["caribbean".data, "venezuela".data, "orchila".data, "st. croix".data,
      "trinidad".data, "tobago".data, "puerto rico".data,
      "virgin islands".data, "absolute resolve".data]),
   ("South China Sea".data,
     ["south china sea".data, "spratly islands".data, "spratly".data,
      "luzon".data]),
   ("Western Pacific (WESTPAC)".data,
     ["san bernardino strait".data, "western pacific".data, "westpac".data]),
   ("Philippine Sea".data, ["philippine sea".data]),
   ("East China Sea".data, ["east china sea".data]),
   ("Red Sea".data, ["red sea".data]),
   ("Persian Gulf".data, ["persian gulf".data, "arabian gulf".data]),
   ("Gulf of Oman".data, ["gulf of oman".data]),
   ("Gulf of Aden".data, ["gulf of aden".data]),
   ("Arabian Sea".data, ["arabian sea".data]),
   ("Mediterranean".data, ["mediterranean".data, "med sea".data]),
   ("North Sea".data, ["north sea".data]),
   ("Norwegian Sea".data, ["norwegian sea".data]),
   ("Strait of Gibraltar".data, ["gibraltar".data]),
   ("Suez Canal".data, ["suez".data]),
   ("Bab el-Mandeb".data, ["bab el-mandeb".data]),
   ("Sea of Japan".data, ["sea of japan".data]),
   ("Atlantic Ocean".data, ["atlantic".data]),
   ("Pacific Ocean".data, ["pacific".data]),
   ("Indian Ocean".data, ["indian ocean".data])]

/-- The `departure_patterns` table of `categorize_location` (fleet scraper). -/
def departure_patterns : List (List Char × List Char) :=
  [("departed san diego".data, "Pacific Ocean".data),
   ("departed norfolk".data, "Atlantic Ocean".data),
   ("departed pearl harbor".data, "Pacific Ocean".data),
   ("departed mayport".data, "Atlantic Ocean".data),
   ("departed bremerton".data, "Pacific Ocean".data),
   ("departed yokosuka".data, "Western Pacific (WESTPAC)".data),
   ("departed sasebo".data, "Western Pacific (WESTPAC)".data)]

/-- Does any keyword of the keyword table occur in `rem` (the text after the
    last occurrence of a departure phrase)? -/
def hasSubsequentLoc (rem : List Char) : Bool :=
  LOCATION_KEYWORDS.any (fun pr => pr.2.any (fun kw => substr kw rem))

/-- The departure-override loop: return the first pattern whose phrase occurs
    in the lower-cased text with no location keyword after its last
    occurrence. -/
def depScan (tl : List Char) : List (List Char × List Char) → Option (List Char)
  | [] => none
  | (phrase, loc) :: rest =>
    if substr phrase tl then
      if hasSubsequentLoc (tl.drop ((rfind phrase tl).getD 0 + phrase.length)) then
        depScan tl rest
      else some loc
    else depScan tl rest

/-- One step of the rightmost-match fold: scan a `(location, keywords)` pair,
    updating `(last_match, last_position)` whenever a keyword's last
    occurrence index is strictly greater. -/
def bmStep (tl : List Char) (acc : Option (List Char) × Int)
    (pr : List Char × List (List Char)) : Option (List Char) × Int :=
  pr.2.foldl
    (fun a kw => if rfindI kw tl > a.2 then (some pr.1, rfindI kw tl) else a) acc

/-- The rightmost-keyword search of `categorize_location`. -/
def bestMatch (tl : List Char) : Option (List Char) :=
  (LOCATION_KEYWORDS.foldl (bmStep tl) (none, -1)).1

/-- `categorize_location` of `fleet_scraper.py` (total by construction: the
    Python version has no raising path). -/
def categorize_location (text : List Char) (homeport : List Char) : List Char :=
  let tl := lower text
  match depScan tl departure_patterns with
  | some loc => loc
  | none =>
    match bestMatch tl with
    | some loc => loc
    | none =>
      if homeport = "PACIFIC".data then "Pacific Ocean".data
      else if homeport = "WESTPAC".data then "Western Pacific (WESTPAC)".data
      else "Atlantic Ocean".data

/-! ### Date Extractor (`extract_date`)

The regex `(?:Jan|Feb|Mar|Apr|May|Jun|Jul|Aug|Sep|Oct|Nov|Dec)[a-z]*\.?\s+\d{1,2}`
with `re.IGNORECASE` is deterministic: after the three month letters, `[a-z]*`
greedily takes ASCII letters (none of which can satisfy `\.?` or `\s+`), the
optional dot is taken iff present, `\s+` greedily takes whitespace, and
`\d{1,2}` takes one or two digits. -/

/-- ASCII digit. -/
def isDigitCh (c : Char) : Bool := '0' ≤ c && c ≤ '9'

/-- `[a-z]` under `re.IGNORECASE`: any ASCII letter. -/
def asciiAlpha (c : Char) : Bool := ('a' ≤ c && c ≤ 'z') || ('A' ≤ c && c ≤ 'Z')

/-- The twelve month alternatives, lower-cased. -/
def monthsLow : List (List Char) :=
  ["jan".data, "feb".data, "mar".data, "apr".data, "may".data, "jun".data,
   "jul".data, "aug".data, "sep".data, "oct".data, "nov".data, "dec".data]

/-- Case-insensitive test that three characters spell a month alternative. -/
def monthOk (a b c : Char) : Bool :=
  monthsLow.contains [a.toLower, b.toLower, c.toLower]

/-- `\.?`: the optional literal dot (taken greedily when present). -/
def dotSplit : List Char → List Char × List Char
  | '.' :: r => (['.'], r)
  | r => ([], r)

/-- `\d{1,2}` (greedy): one or two digits, or failure. -/
def digitsTake : List Char → Option (List Char × List Char)
  | [] => none
  | d1 :: r =>
    if isDigitCh d1 then
      match r with
      | d2 :: r2 =>
        if isDigitCh d2 then some ([d1, d2], r2) else some ([d1], d2 :: r2)
      | [] => some ([d1], [])
    else none

/-- `\s+\d{1,2}`: at least one whitespace character, then the digits. -/
def wsDigits (r2 : List Char) : Option (List Char × List Char) :=
  if (r2.takeWhile pyWs).isEmpty then none
  else
    match digitsTake (r2.dropWhile pyWs) with
    | some (ds, rest) => some (r2.takeWhile pyWs ++ ds, rest)
    | none => none

/-- `[a-z]*\.?\s+\d{1,2}`: the pattern after the three month letters. -/
def tailMatch (rest : List Char) : Option (List Char × List Char) :=
  match wsDigits (dotSplit (rest.dropWhile asciiAlpha)).2 with
  | some (wd, r) =>
      some (rest.takeWhile asciiAlpha
              ++ (dotSplit (rest.dropWhile asciiAlpha)).1 ++ wd, r)
  | none => none

/-- Attempt to match the date pattern at the head of the list; on success
    return the matched characters and the remainder.  The regex is
    deterministic here: letters, the dot, whitespace and digits are disjoint
    character classes, so greedy matching needs no backtracking. -/
def matchDateAt : List Char → Option (List Char × List Char)
  | a :: b :: c :: rest =>
    if monthOk a b c then
      match tailMatch rest with
      | some (tm, r) => some (a :: b :: c :: tm, r)
      | none => none
    else none
  | _ => none

/-- Fuel-driven `re.findall` scan: try a match at every position, consuming
    matches whole (non-overlapping); `l.length` fuel is always enough. -/
def findAllAux : Nat → List Char → List (List Char)
  | 0, _ => []
  | _ + 1, [] => []
  | fuel + 1, c :: cs =>
    match matchDateAt (c :: cs) with
    | some (m, r) => m :: findAllAux fuel r
    | none => findAllAux fuel cs

/-- `re.findall(pattern, text, re.IGNORECASE)` for the date pattern. -/
def findAllDates (l : List Char) : List (List Char) := findAllAux l.length l

/-- The sentinel returned when no date matches. -/
def dateUnspec : List Char := "Date Unspecified".data

/-- `extract_date` of `fleet_scraper.py`: the last match, or the sentinel. -/
def extract_date (t : List Char) : List Char :=
  match (findAllDates t).getLast? with
  | some m => m
  | none => dateUnspec

/-- The caller's substitution in `scrape_fleet`:
    `if date_str == "Date Unspecified": date_str = year`. -/
def assembleDate (status year : List Char) : List Char :=
  let d := extract_date status
  if d = dateUnspec then year else d

/-- The matching occurrence of the date pattern with the greatest start
    index in `t` (the "rightmost matching substring"), found by scanning
    start positions from the end. -/
def rightmostFrom (t : List Char) : Nat → Option (List Char)
  | 0 => (matchDateAt t).map (fun pr => pr.1)
  | i + 1 =>
    match matchDateAt (t.drop (i + 1)) with
    | some pr => some pr.1
    | none => rightmostFrom t i

/-- The date-pattern match starting at the greatest index of `t`, if any. -/
def rightmostDateMatch (t : List Char) : Option (List Char) :=
  rightmostFrom t t.length

/-! ### Offset Placement (`apply_location_offsets`) -/

/-- The `ShipStatus` dataclass of `fleet_scraper.py`. -/
structure ShipStatus where
  hull : String
  name : String
  ship_class : String
  ship_type : String
  location : String
  lat : Float
  lon : Float
  region : String
  date : String
  status : String
  source_url : String
  display_lat : Float := 0.0
  display_lon : Float := 0.0

/-- Offset radius as a step function of the group size (fleet scraper). -/
def offsetDistance (count : Nat) : Float :=
  if count ≤ 3 then 3.0 else if count ≤ 5 then 4.0 else if count ≤ 8 then 5.0
  else 6.0

/-- Python's `math.pi`. -/
def mathPi : Float := 3.141592653589793

/-- `apply_location_offsets` of `fleet_scraper.py`, as a pure function: the
    in-place mutation of `display_lat`/`display_lon` becomes a record update;
    each ship's group is the ships sharing its `location`, its index is its
    rank among them in input order, and the returned list is the input list
    (same records, same order) with only the display fields recomputed. -/
def apply_location_offsets (ships : List ShipStatus) : List ShipStatus :=
  ships.enum.map (fun pe =>
    let p := pe.1
    let s := pe.2
    let count := (ships.filter (fun x => x.location == s.location)).length
    if count = 1 then { s with display_lat := s.lat, display_lon := s.lon }
    else
      let i := ((ships.take p).filter (fun x => x.location == s.location)).length
      let angle := (2 * mathPi * Float.ofNat i) / Float.ofNat count
      let radius := offsetDistance count * (1.0 + 0.15 * Float.ofNat (i % 2))
      { s with display_lat := s.lat + radius * Float.sin angle,
               display_lon := s.lon + radius * Float.cos angle })

/-- The eleven fields of a `ShipStatus` other than the display coordinate. -/
def frameFields (s : ShipStatus) :
    String × String × String × String × String × Float × Float × String ×
    String × String × String :=
  (s.hull, s.name, s.ship_class, s.ship_type, s.location, s.lat, s.lon,
   s.region, s.date, s.status, s.source_url)

/-- The `ShipStatus` dataclass of `destroyer_scraper.py` (field `flight`
    replaces `ship_type`). -/
structure DShipStatus where
  hull : String
  name : String
  ship_class : String
  flight : String
  location : String
  lat : Float
  lon : Float
  region : String
  date : String
  status : String
  source_url : String
  display_lat : Float := 0.0
  display_lon : Float := 0.0

/-- Offset radius step function of `destroyer_scraper.py`. -/
def dOffsetDistance (count : Nat) : Float :=
  if count ≤ 3 then 2.0 else if count ≤ 6 then 2.5 else if count ≤ 10 then 3.0
  else if count ≤ 15 then 3.5 else 4.0

/-- `apply_location_offsets` of `destroyer_scraper.py`, as a pure function. -/
def d_apply_location_offsets (ships : List DShipStatus) : List DShipStatus :=
  ships.enum.map (fun pe =>
    let p := pe.1
    let s := pe.2
    let count := (ships.filter (fun x => x.location == s.location)).length
    if count = 1 then { s with display_lat := s.lat, display_lon := s.lon }
    else
      let i := ((ships.take p).filter (fun x => x.location == s.location)).length
      let angle := (2 * mathPi * Float.ofNat i) / Float.ofNat count
      let radius := dOffsetDistance count * (1.0 + 0.1 * Float.ofNat (i % 3))
      { s with display_lat := s.lat + radius * Float.sin angle,
               display_lon := s.lon + radius * Float.cos angle })

/-- The eleven non-display fields of a `DShipStatus`. -/
def dFrameFields (s : DShipStatus) :
    String × String × String × String × String × Float × Float × String ×
    String × String × String :=
  (s.hull, s.name, s.ship_class, s.flight, s.location, s.lat, s.lon,
   s.region, s.date, s.status, s.source_url)

/-! ### Basic lemmas about the string primitives -/

theorem pfx_iff {p l : List Char} : p.isPrefixOf l = true ↔ ∃ t, p ++ t = l := by
  rw [ List.isPrefixOf_iff_prefix]
  exact Iff.rfl

theorem pfx_append (p t : List Char) : p.isPrefixOf (p ++ t) = true :=
  pfx_iff.mpr ⟨t, rfl⟩

theorem pfx_length {p l : List Char} (h : p.isPrefixOf l = true) :
    p.length ≤ l.length := by
  obtain ⟨t, ht⟩ := pfx_iff.mp h
  subst ht
  simp

theorem pfx_nil {p : List Char} (h : p.isPrefixOf ([] : List Char) = true) :
    p = [] := by
  obtain ⟨t, ht⟩ := pfx_iff.mp h
  exact (List.append_eq_nil.mp ht).1

theorem substr_iff {p l : List Char} :
    substr p l = true ↔ ∃ i, i ≤ l.length ∧ p.isPrefixOf (l.drop i) = true := by
  induction l with
  | nil =>
    simp only [substr, List.isEmpty_iff]
    constructor
    · rintro rfl
      exact ⟨0, Nat.le_refl 0, by simp [List.isPrefixOf]⟩
    · rintro ⟨i, -, h⟩
      exact pfx_nil (by simpa using h)
  | cons c cs ih =>
    simp only [substr, Bool.or_eq_true]
    constructor
    · rintro (h | h)
      · exact ⟨0, Nat.zero_le _, h⟩
      · obtain ⟨i, hi, hp⟩ := ih.mp h
        exact ⟨i + 1, by simpa using Nat.succ_le_succ hi, by simpa using hp⟩
    · rintro ⟨i, hi, hp⟩
      cases i with
      | zero => exact Or.inl hp
      | succ j =>
        refine Or.inr (ih.mpr ⟨j, ?_, ?_⟩)
        · simpa using Nat.le_of_succ_le_succ hi
        · simpa using hp

theorem substr_of_pfx {p l : List Char} (h : p.isPrefixOf l = true) :
    substr p l = true :=
  substr_iff.mpr ⟨0, Nat.zero_le _, h⟩

theorem substr_nil_left (l : List Char) : substr [] l = true := by
  cases l with
  | nil => rfl
  | cons c cs => simp [substr, List.isPrefixOf]

theorem substr_of_pfx_drop {p l : List Char} {i : Nat}
    (h : p.isPrefixOf (l.drop i) = true) : substr p l = true := by
  rcases Nat.le_total i l.length with hi | hi
  · exact substr_iff.mpr ⟨i, hi, h⟩
  · have hnil : l.drop i = [] := List.drop_eq_nil_of_le hi
    rw [hnil] at h
    rw [pfx_nil h]
    exact substr_nil_left l

theorem substr_drop {p l : List Char} {n : Nat}
    (h : substr p (l.drop n) = true) : substr p l = true := by
  obtain ⟨i, -, hp⟩ := substr_iff.mp h
  rw [List.drop_drop] at hp
  exact substr_of_pfx_drop hp

theorem substr_tail_of_append {a b l : List Char}
    (h : substr (a ++ b) l = true) : substr b l = true := by
  obtain ⟨i, -, hp⟩ := substr_iff.mp h
  obtain ⟨t, ht⟩ := pfx_iff.mp hp
  rw [List.append_assoc] at ht
  have hdrop : l.drop (i + a.length) = b ++ t := by
    have h1 : (l.drop i).drop a.length = l.drop (i + a.length) := List.drop_drop _ _ _
    rw [← h1, ← ht, List.drop_left]
  exact substr_of_pfx_drop (i := i + a.length)
    (by rw [hdrop]; exact pfx_append b t)

theorem rfindFrom_some {p t : List Char} {n i : Nat}
    (h : rfindFrom p t n = some i) :
    p.isPrefixOf (t.drop i) = true ∧ i ≤ n := by
  induction n with
  | zero =>
    simp only [rfindFrom] at h
    split at h
    next hc =>
      cases h
      exact ⟨by simpa using hc, Nat.le_refl 0⟩
    next => cases h
  | succ m ih =>
    simp only [rfindFrom] at h
    split at h
    next hc =>
      cases h
      exact ⟨hc, Nat.le_refl _⟩
    next =>
      obtain ⟨h1, h2⟩ := ih h
      exact ⟨h1, Nat.le_succ_of_le h2⟩

theorem rfind_some {p t : List Char} {i : Nat} (h : rfind p t = some i) :
    ∃ s, t.drop i = p ++ s := by
  obtain ⟨h1, -⟩ := rfindFrom_some h
  obtain ⟨s, hs⟩ := pfx_iff.mp h1
  exact ⟨s, hs.symm⟩

theorem rfindFrom_isSome {p t : List Char} {n i : Nat} (hi : i ≤ n)
    (h : p.isPrefixOf (t.drop i) = true) :
    (rfindFrom p t n).isSome = true := by
  induction n with
  | zero =>
    have hz : i = 0 := Nat.le_zero.mp hi
    subst hz
    simp only [rfindFrom]
    rw [if_pos (show p.isPrefixOf t = true by simpa using h)]
    rfl
  | succ m ih =>
    simp only [rfindFrom]
    split
    next => rfl
    next hc =>
      rcases Nat.lt_or_ge i (m + 1) with hlt | hge
      · exact ih (Nat.lt_succ_iff.mp hlt)
      · have he : i = m + 1 := Nat.le_antisymm hi hge
        subst he
        exact absurd h hc

theorem rfind_isSome_of_substr {p t : List Char} (h : substr p t = true) :
    (rfind p t).isSome = true := by
  obtain ⟨i, hi, hp⟩ := substr_iff.mp h
  exact rfindFrom_isSome hi hp

theorem substr_of_rfind_some {p t : List Char} {i : Nat}
    (h : rfind p t = some i) : substr p t = true := by
  obtain ⟨s, hs⟩ := rfind_some h
  exact substr_drop (l := t) (n := i) (by rw [hs]; exact substr_of_pfx (pfx_append p s))

theorem pfx_of_append_eq {p₁ t₁ p₂ t₂ : List Char}
    (h : p₁ ++ t₁ = p₂ ++ t₂) (hlen : p₁.length ≤ p₂.length) :
    p₁.isPrefixOf p₂ = true := by
  have hp : p₂.take p₁.length = p₁ := by
    have h1 : (p₁ ++ t₁).take p₁.length = p₁ := by simp
    rw [h, List.take_append_eq_append_take, Nat.sub_eq_zero_of_le hlen] at h1
    simpa using h1
  refine pfx_iff.mpr ⟨p₂.drop p₁.length, ?_⟩
  conv_rhs => rw [← List.take_append_drop p₁.length p₂]
  rw [hp]

/-! ### Lemmas about the Status Selector scans -/

/-- A line qualifies for a scan pass: its running-year tag passes the year
    test, its lower-cased text contains an activity keyword, and it is not a
    low-value `"from ... - ..."` caption. -/
def qualifies (yearOk : List Char → Bool) (e : Entry) : Bool :=
  yearOk e.year && hasActivityKw (lower e.text) && !lowValue (lower e.text)

theorem scanFor_eq_some {yearOk : List Char → Bool} {l : List Entry}
    {y s : List Char} (h : scanFor yearOk l = some (y, s)) :
    ∃ pre e post, l = pre ++ e :: post ∧
      (∀ e' ∈ pre, qualifies yearOk e' = false) ∧
      qualifies yearOk e = true ∧ y = e.year ∧ s = e.text := by
  induction l with
  | nil => simp [scanFor] at h
  | cons e rest ih =>
    simp only [scanFor] at h
    split at h
    next hc1 =>
      split at h
      next hc2 =>
        obtain ⟨pre, e', post, hsplit, hpre, hq, hy, hs⟩ := ih h
        refine ⟨e :: pre, e', post, by rw [hsplit, List.cons_append], ?_, hq, hy, hs⟩
        intro x hx
        rcases List.mem_cons.mp hx with rfl | hx
        · simp [qualifies, hc1, hc2]
        · exact hpre x hx
      next hc2 =>
        cases h
        refine ⟨[], e, rest, rfl, by simp, ?_, rfl, rfl⟩
        simp only [qualifies]
        rw [hc1]
        simp [Bool.eq_false_iff.mpr hc2]
    next hc1 =>
      obtain ⟨pre, e', post, hsplit, hpre, hq, hy, hs⟩ := ih h
      refine ⟨e :: pre, e', post, by rw [hsplit, List.cons_append], ?_, hq, hy, hs⟩
      intro x hx
      rcases List.mem_cons.mp hx with rfl | hx
      · simp only [qualifies]
        rw [Bool.eq_false_iff.mpr hc1]
        simp
      · exact hpre x hx

theorem scanFor_eq_none {yearOk : List Char → Bool} {l : List Entry}
    (h : ∀ e ∈ l, qualifies yearOk e = false) :
    scanFor yearOk l = none := by
  induction l with
  | nil => rfl
  | cons e rest ih =>
    have he : qualifies yearOk e = false := h e (List.mem_cons_self e rest)
    have hrest : scanFor yearOk rest = none :=
      ih (fun x hx => h x (List.mem_cons_of_mem e hx))
    simp only [scanFor]
    split
    next hc1 =>
      split
      next => exact hrest
      next hc2 =>
        exfalso
        simp only [qualifies, hc1, Bool.true_and] at he
        rw [Bool.eq_false_iff.mpr hc2] at he
        simp at he
    next => exact hrest

/-- Claim C1: when the primary scan succeeds, the Status Selector returns the
    qualifying line closest to the end of the block together with its running
    year; all lines after it fail to qualify (none is skipped), where a line
    qualifies iff its year tag is in {2025, 2026, 2027}, it contains an
    activity keyword, and it is not a low-value "from ... - ..." caption. -/
theorem c1_primary_scan_returns_last_qualifying (block y s : List Char)
    (h : scanFor primaryYearOk (processedLines block).reverse = some (y, s)) :
    parse_status_entry block = (y, s) ∧
    ∃ pre e post, processedLines block = pre ++ e :: post ∧
      qualifies primaryYearOk e = true ∧
      (∀ e' ∈ post, qualifies primaryYearOk e' = false) ∧
      y = e.year ∧ s = e.text := by
  constructor
  · simp only [parse_status_entry]
    rw [h]
  · obtain ⟨pre, e, post, hsplit, hpre, hq, hy, hs⟩ := scanFor_eq_some h
    have hl : processedLines block = post.reverse ++ e :: pre.reverse := by
      have h2 : (processedLines block).reverse.reverse = (pre ++ e :: post).reverse := by
        rw [hsplit]
      simpa [List.reverse_append] using h2
    refine ⟨post.reverse, e, pre.reverse, hl, hq, ?_, hy, hs⟩
    intro x hx
    exact hpre x (List.mem_reverse.mp hx)

/-- Witness for C1 at a concrete block: the last line qualifies under the
    primary years and is returned with year "2025". -/
theorem c1_witness :
    scanFor Usn.primaryYearOk
        (Usn.processedLines "2025\nAlpha moored at pier\nBravo arrived".data).reverse
      = some ("2025".data, "Bravo arrived".data) ∧
    (Usn.parse_status_entry "2025\nAlpha moored at pier\nBravo arrived".data
        = ("2025".data, "Bravo arrived".data) ∧
     ∃ pre e post,
        Usn.processedLines "2025\nAlpha moored at pier\nBravo arrived".data
          = pre ++ e :: post ∧
        Usn.qualifies Usn.primaryYearOk e = true ∧
        (∀ e' ∈ post, Usn.qualifies Usn.primaryYearOk e' = false) ∧
        "2025".data = e.year ∧ "Bravo arrived".data = e.text) :=
  ⟨by decide, c1_primary_scan_returns_last_qualifying _ _ _ (by decide)⟩

/-- Claim C5: when the primary scan fails, the selector repeats the same
    reverse scan accepting only year "2024"; if that also fails it returns the
    initially computed current year (which is "Unknown" when no in-range year
    token occurs, in particular for the empty block) with the sentinel status,
    and it is total by construction (no raising path). -/
theorem c5_fallback_chain (block : List Char)
    (hp : scanFor primaryYearOk (processedLines block).reverse = none) :
    (∀ r, scanFor fallbackYearOk (processedLines block).reverse = some r →
        parse_status_entry block = r) ∧
    (scanFor fallbackYearOk (processedLines block).reverse = none →
        parse_status_entry block = (currentYear block, noStatus)) ∧
    (findYears block = [] → currentYear block = unknownYear) ∧
    parse_status_entry [] = (unknownYear, noStatus) := by
  refine ⟨?_, ?_, ?_, by decide⟩
  · intro r hr
    simp only [parse_status_entry]
    rw [hp, hr]
  · intro hr
    simp only [parse_status_entry]
    rw [hp, hr]
  · intro hy
    simp [currentYear, hy]

/-- Witness for C5 at the empty block: both scans fail and the terminal
    fallback ("Unknown", "No recent status found.") is produced. -/
theorem c5_witness :
    scanFor Usn.primaryYearOk (Usn.processedLines []).reverse = none ∧
    ((∀ r, scanFor Usn.fallbackYearOk (Usn.processedLines []).reverse = some r →
        Usn.parse_status_entry [] = r) ∧
     (scanFor Usn.fallbackYearOk (Usn.processedLines []).reverse = none →
        Usn.parse_status_entry [] = (Usn.currentYear [], Usn.noStatus)) ∧
     (Usn.findYears [] = [] → Usn.currentYear [] = Usn.unknownYear) ∧
     Usn.parse_status_entry [] = (Usn.unknownYear, Usn.noStatus)) :=
  ⟨by decide, c5_fallback_chain [] (by decide)⟩

/-! ### Lemmas about the Temporal Annotator -/

theorem findYearsAux_nil {l : List Char} (h : ∀ i, yearTok (l.drop i) = none) :
    ∀ fuel, findYearsAux fuel l = [] := by
  induction l with
  | nil =>
    intro fuel
    cases fuel <;> rfl
  | cons c cs ih =>
    intro fuel
    cases fuel with
    | zero => rfl
    | succ m =>
      have h0 : yearTok (c :: cs) = none := by simpa using h 0
      simp only [findYearsAux, h0]
      exact ih (fun i => by simpa using h (i + 1)) m

theorem yearTok_long {l : List Char} {i : Nat} (h : l.length ≤ i) :
    yearTok (l.drop i) = none := by
  rw [List.drop_eq_nil_of_le h]
  rfl

theorem yearTok_some_shape {l y : List Char} (h : yearTok l = some y) :
    ∃ c rest, l = '2' :: '0' :: '2' :: c :: rest ∧ ('3' ≤ c ∧ c ≤ '7') ∧
      y = ['2', '0', '2', c] := by
  unfold yearTok at h
  split at h
  next c rest =>
    split at h
    next hc =>
      cases h
      exact ⟨c, rest, rfl, hc, rfl⟩
    next => cases h
  next => cases h

theorem yearTok_pfx_lift {line t y : List Char}
    (hp : line.isPrefixOf t = true) (h : yearTok line = some y) :
    yearTok t = some y := by
  obtain ⟨c, rest, hl, hc, hy⟩ := yearTok_some_shape h
  obtain ⟨s, hs⟩ := pfx_iff.mp hp
  subst hl
  subst hy
  rw [← hs]
  simp only [List.cons_append, yearTok]
  rw [if_pos hc]

theorem splitOnNl_ne_nil (l : List Char) : splitOnNl l ≠ [] := by
  cases l with
  | nil => simp [splitOnNl]
  | cons c cs =>
    simp only [splitOnNl]
    split
    · simp
    · split
      · simp
      · simp

theorem splitOnNl_head_pfx {l l₀ : List Char} {ls : List (List Char)}
    (h : splitOnNl l = l₀ :: ls) : l₀.isPrefixOf l = true := by
  induction l generalizing l₀ ls with
  | nil =>
    simp only [splitOnNl] at h
    cases h
    rfl
  | cons c cs ih =>
    simp only [splitOnNl] at h
    split at h
    next hc =>
      cases h
      simp [List.isPrefixOf]
    next hc =>
      cases hsp : splitOnNl cs with
      | nil => exact absurd hsp (splitOnNl_ne_nil cs)
      | cons m₀ ms =>
        rw [hsp] at h
        cases h
        obtain ⟨t, ht⟩ := pfx_iff.mp (ih hsp)
        exact pfx_iff.mpr ⟨t, by rw [List.cons_append, ht]⟩

theorem splitOnNl_mem_pfx {l line : List Char} (h : line ∈ splitOnNl l) :
    ∃ i, line.isPrefixOf (l.drop i) = true := by
  induction l generalizing line with
  | nil =>
    simp only [splitOnNl, List.mem_singleton] at h
    subst h
    exact ⟨0, rfl⟩
  | cons c cs ih =>
    simp only [splitOnNl] at h
    split at h
    next hc =>
      rcases List.mem_cons.mp h with rfl | h
      · exact ⟨0, by simp [List.isPrefixOf]⟩
      · obtain ⟨i, hi⟩ := ih h
        exact ⟨i + 1, by simpa using hi⟩
    next hc =>
      cases hsp : splitOnNl cs with
      | nil => exact absurd hsp (splitOnNl_ne_nil cs)
      | cons m₀ ms =>
        rw [hsp] at h
        rcases List.mem_cons.mp h with rfl | h
        · refine ⟨0, ?_⟩
          obtain ⟨t, ht⟩ := pfx_iff.mp (splitOnNl_head_pfx hsp)
          exact pfx_iff.mpr ⟨t, by rw [List.cons_append, ht]; rfl⟩
        · obtain ⟨i, hi⟩ := ih (by rw [hsp]; exact List.mem_cons_of_mem m₀ h)
          exact ⟨i + 1, by simpa using hi⟩

theorem annotate_year_const {lines : List (List Char)} {running : List Char}
    (h : ∀ line ∈ lines, yearTok line = none) :
    ∀ e ∈ annotate running lines, e.year = running := by
  induction lines generalizing running with
  | nil => simp [annotate]
  | cons line rest ih =>
    have h0 : yearTok line = none := h line (List.mem_cons_self line rest)
    intro e he
    simp only [annotate, h0] at he
    rcases List.mem_cons.mp he with rfl | he
    · rfl
    · exact ih (fun x hx => h x (List.mem_cons_of_mem line hx)) e he

/-- Claim C8: over a block containing no year token of the restricted range
    anywhere, every annotated line is tagged "Unknown", the primary and the
    2024 fallback scans both fail, and the terminal fallback
    ("Unknown", "No recent status found.") is returned. -/
theorem c8_no_year_tokens (block : List Char)
    (h : ∀ i, yearTok (block.drop i) = none) :
    (∀ e ∈ processedLines block, e.year = unknownYear) ∧
    scanFor primaryYearOk (processedLines block).reverse = none ∧
    scanFor fallbackYearOk (processedLines block).reverse = none ∧
    parse_status_entry block = (unknownYear, noStatus) := by
  have hfy : findYears block = [] := findYearsAux_nil h block.length
  have hcy : currentYear block = unknownYear := by
    simp [currentYear, hfy]
  have hlines : ∀ line ∈ splitOnNl block, yearTok line = none := by
    intro line hline
    cases hy : yearTok line with
    | none => rfl
    | some y =>
      obtain ⟨i, hi⟩ := splitOnNl_mem_pfx hline
      have := yearTok_pfx_lift hi hy
      rw [h i] at this
      cases this
  have hyears : ∀ e ∈ processedLines block, e.year = unknownYear := by
    intro e he
    simp only [processedLines, hcy] at he
    exact annotate_year_const hlines e he
  have hqual : ∀ yearOk : List Char → Bool, yearOk unknownYear = false →
      ∀ e ∈ (processedLines block).reverse, qualifies yearOk e = false := by
    intro yearOk hok e he
    simp only [qualifies]
    rw [hyears e (List.mem_reverse.mp he), hok]
    simp
  have hps : scanFor primaryYearOk (processedLines block).reverse = none :=
    scanFor_eq_none (hqual primaryYearOk (by decide))
  have hfs : scanFor fallbackYearOk (processedLines block).reverse = none :=
    scanFor_eq_none (hqual fallbackYearOk (by decide))
  refine ⟨hyears, hps, hfs, ?_⟩
  simp only [parse_status_entry]
  rw [hps, hfs, hcy]

/-- Witness for C8 at a concrete year-free block with activity keywords. -/
theorem c8_witness :
    (∀ e ∈ Usn.processedLines "ship moored at pier\nlater underway".data,
        e.year = Usn.unknownYear) ∧
    scanFor Usn.primaryYearOk
        (Usn.processedLines "ship moored at pier\nlater underway".data).reverse = none ∧
    scanFor Usn.fallbackYearOk
        (Usn.processedLines "ship moored at pier\nlater underway".data).reverse = none ∧
    Usn.parse_status_entry "ship moored at pier\nlater underway".data
      = (Usn.unknownYear, Usn.noStatus) := by
  have hb : ∀ i, i < ("ship moored at pier\nlater underway".data).length →
      yearTok (("ship moored at pier\nlater underway".data).drop i) = none := by
    decide
  refine c8_no_year_tokens _ (fun i => ?_)
  rcases Nat.lt_or_ge i ("ship moored at pier\nlater underway".data).length with hi | hi
  · exact hb i hi
  · exact yearTok_long hi

/-! ### End-to-end and date-pattern facts settled by evaluation -/

/-- Claim C6: on the block "2025\nJanuary transited Red Sea.\nFebruary arrived
    Bahrain.\n" with homeport "CENTCOM", the selector returns year "2025" and
    status "February arrived Bahrain.", the classifier returns "Bahrain", the
    date extractor returns the sentinel (a bare month word is not a date), and
    the caller therefore displays the year "2025". -/
theorem c6_end_to_end :
    parse_status_entry
        "2025\nJanuary transited Red Sea.\nFebruary arrived Bahrain.\n".data
      = ("2025".data, "February arrived Bahrain.".data) ∧
    categorize_location "February arrived Bahrain.".data "CENTCOM".data
      = "Bahrain".data ∧
    extract_date "February arrived Bahrain.".data = dateUnspec ∧
    assembleDate "February arrived Bahrain.".data "2025".data = "2025".data :=
  ⟨by decide, by decide, by decide, by decide⟩

/-- Claim C10: the month pattern matches any word whose first three letters
    spell a month abbreviation, so sentences with no calendar date can produce
    non-sentinel results, e.g. "decided 5" and "Maybe 12". -/
theorem c10_month_prefix_words :
    extract_date "The council decided 5 things.".data = "decided 5".data ∧
    extract_date "Maybe 12 ships sailed".data = "Maybe 12".data ∧
    "decided 5".data ≠ dateUnspec ∧ "Maybe 12".data ≠ dateUnspec :=
  ⟨by decide, by decide, by decide, by decide⟩

/-- Counterexample to claim C7 as stated: on "JanJan 5" the extractor returns
    the full scan match "JanJan 5", while the matching substring with the
    greatest start index (the rightmost match, starting at index 3) is
    "Jan 5". -/
theorem c7_counterexample :
    extract_date "JanJan 5".data = "JanJan 5".data ∧
    rightmostDateMatch "JanJan 5".data = some "Jan 5".data ∧
    "JanJan 5".data ≠ "Jan 5".data :=
  ⟨by decide, by decide, by decide⟩

/-! ### Claim C4: homeport default of the Location Classifier -/

theorem dep_phrase_has_kw :
    ∀ pr ∈ departure_patterns, ∃ pair ∈ LOCATION_KEYWORDS, ∃ kw ∈ pair.2,
      pr.1 = "departed ".data ++ kw := by decide

theorem rfindI_eq_neg_one {kw tl : List Char} (h : substr kw tl = false) :
    rfindI kw tl = -1 := by
  unfold rfindI
  cases hr : rfind kw tl with
  | none => rfl
  | some i =>
    rw [substr_of_rfind_some hr] at h
    cases h

theorem depScan_none_of_no_kw {tl : List Char}
    (h : ∀ pair ∈ LOCATION_KEYWORDS, ∀ kw ∈ pair.2, substr kw tl = false) :
    ∀ ps : List (List Char × List Char),
      (∀ pr ∈ ps, ∃ pair ∈ LOCATION_KEYWORDS, ∃ kw ∈ pair.2,
        pr.1 = "departed ".data ++ kw) →
      depScan tl ps = none := by
  intro ps hps
  induction ps with
  | nil => rfl
  | cons pr rest ih =>
    obtain ⟨pair, hpair, kw, hkw, hphrase⟩ := hps pr (List.mem_cons_self pr rest)
    have hsub : substr pr.1 tl = false := by
      cases hsb : substr pr.1 tl with
      | false => rfl
      | true =>
        rw [hphrase] at hsb
        have hk : substr kw tl = true := substr_tail_of_append hsb
        rw [h pair hpair kw hkw] at hk
        cases hk
    obtain ⟨phrase, loc⟩ := pr
    simp only [depScan]
    rw [hsub]
    simp only [Bool.false_eq_true, if_false]
    exact ih (fun x hx => hps x (List.mem_cons_of_mem _ hx))

theorem bmFold_inner_id {tl : List Char} {tag : List Char}
    {kws : List (List Char)} {acc : Option (List Char) × Int}
    (h : ∀ kw ∈ kws, rfindI kw tl ≤ acc.2) :
    kws.foldl
      (fun a kw => if rfindI kw tl > a.2 then (some tag, rfindI kw tl) else a)
      acc = acc := by
  induction kws with
  | nil => rfl
  | cons kw rest ih =>
    have h0 : rfindI kw tl ≤ acc.2 := h kw (List.mem_cons_self kw rest)
    simp only [List.foldl_cons]
    rw [if_neg (by omega)]
    exact ih (fun x hx => h x (List.mem_cons_of_mem kw hx))

theorem bestMatch_none_of_no_kw {tl : List Char}
    (h : ∀ pair ∈ LOCATION_KEYWORDS, ∀ kw ∈ pair.2, substr kw tl = false) :
    bestMatch tl = none := by
  have hfold : ∀ ps : List (List Char × List (List Char)),
      (∀ pair ∈ ps, ∀ kw ∈ pair.2, substr kw tl = false) →
      ps.foldl (bmStep tl) (none, -1) = (none, -1) := by
    intro ps hps
    induction ps with
    | nil => rfl
    | cons pair rest ih =>
      simp only [List.foldl_cons]
      have hstep : bmStep tl (none, -1) pair = (none, -1) := by
        unfold bmStep
        refine bmFold_inner_id ?_
        intro kw hkw
        rw [rfindI_eq_neg_one (hps pair (List.mem_cons_self pair rest) kw hkw)]
      rw [hstep]
      exact ih (fun x hx => hps x (List.mem_cons_of_mem pair hx))
  unfold bestMatch
  rw [hfold LOCATION_KEYWORDS h]

/-- Claim C4: the classifier is total (it is a Lean function; the Python body
    has no raising path), and when no keyword of the table occurs in the
    lower-cased sentence, the result is the homeport default: "PACIFIC" maps
    to "Pacific Ocean", "WESTPAC" to "Western Pacific (WESTPAC)", and any
    other homeport to "Atlantic Ocean". -/
theorem c4_homeport_default (t hp : List Char)
    (h : ∀ pair ∈ LOCATION_KEYWORDS, ∀ kw ∈ pair.2, substr kw (lower t) = false) :
    categorize_location t "PACIFIC".data = "Pacific Ocean".data ∧
    categorize_location t "WESTPAC".data = "Western Pacific (WESTPAC)".data ∧
    (hp ≠ "PACIFIC".data → hp ≠ "WESTPAC".data →
      categorize_location t hp = "Atlantic Ocean".data) := by
  have hdep : depScan (lower t) departure_patterns = none :=
    depScan_none_of_no_kw h departure_patterns dep_phrase_has_kw
  have hbm : bestMatch (lower t) = none := bestMatch_none_of_no_kw h
  have hcat : ∀ hp' : List Char, categorize_location t hp' =
      (if hp' = "PACIFIC".data then "Pacific Ocean".data
       else if hp' = "WESTPAC".data then "Western Pacific (WESTPAC)".data
       else "Atlantic Ocean".data) := by
    intro hp'
    simp only [categorize_location, hdep, hbm]
  refine ⟨?_, ?_, ?_⟩
  · rw [hcat]
    simp
  · rw [hcat]
    simp
  · intro h1 h2
    rw [hcat, if_neg h1, if_neg h2]

/-- Witness for C4 on a keyword-free sentence and homeport "CENTCOM". -/
theorem c4_witness :
    (∀ pair ∈ Usn.LOCATION_KEYWORDS, ∀ kw ∈ pair.2,
        substr kw (Usn.lower "hello there world".data) = false) ∧
    (Usn.categorize_location "hello there world".data "PACIFIC".data
        = "Pacific Ocean".data ∧
     Usn.categorize_location "hello there world".data "WESTPAC".data
        = "Western Pacific (WESTPAC)".data ∧
     ("CENTCOM".data ≠ "PACIFIC".data → "CENTCOM".data ≠ "WESTPAC".data →
        Usn.categorize_location "hello there world".data "CENTCOM".data
          = "Atlantic Ocean".data)) :=
  ⟨by decide, c4_homeport_default _ _ (by decide)⟩

/-! ### Claim C9: Offset Placement only touches the display coordinate -/

/-- Claim C9: `apply_location_offsets` (fleet and destroyer variants) returns
    the same records in the same order, with every field other than
    `display_lat`/`display_lon` — in particular the base `lat`/`lon`,
    `location`, `region`, `date` and `status` — unchanged. -/
theorem c9_offsets_frame (ships : List ShipStatus) (dships : List DShipStatus) :
    (apply_location_offsets ships).map frameFields = ships.map frameFields ∧
    (d_apply_location_offsets dships).map dFrameFields
      = dships.map dFrameFields := by
  constructor
  · unfold apply_location_offsets
    rw [List.map_map]
    conv_rhs => rw [← List.enum_map_snd ships, List.map_map]
    congr 1
    funext pe
    simp only [Function.comp]
    split
    next => rfl
    next => rfl
  · unfold d_apply_location_offsets
    rw [List.map_map]
    conv_rhs => rw [← List.enum_map_snd dships, List.map_map]
    congr 1
    funext pe
    simp only [Function.comp]
    split
    next => rfl
    next => rfl

/-! ### Claim C2: the rightmost-keyword argmax characterisation -/

/-- Maximum of a list of indices, floored at the scan's initial `-1`. -/
def listMaxI : List Int → Int
  | [] => -1
  | x :: xs => max x (listMaxI xs)

/-- The greatest last-occurrence index among one pair's keywords. -/
def pairMaxIdx (tl : List Char) (pr : List Char × List (List Char)) : Int :=
  listMaxI (pr.2.map (fun kw => rfindI kw tl))

/-- The greatest last-occurrence index across the whole keyword table. -/
def tableMaxIdx (tl : List Char) : Int :=
  listMaxI (LOCATION_KEYWORDS.map (pairMaxIdx tl))

theorem rfindI_ge (kw tl : List Char) : -1 ≤ rfindI kw tl := by
  unfold rfindI
  cases rfind kw tl with
  | none => exact le_refl _
  | some i =>
    show (-1 : Int) ≤ (i : Int)
    omega

theorem listMaxI_ge (xs : List Int) : -1 ≤ listMaxI xs := by
  induction xs with
  | nil => exact le_refl _
  | cons x xs ih => exact le_trans ih (le_max_right x (listMaxI xs))

theorem le_listMaxI {xs : List Int} {x : Int} (h : x ∈ xs) : x ≤ listMaxI xs := by
  induction xs with
  | nil => cases h
  | cons y ys ih =>
    rcases List.mem_cons.mp h with rfl | h
    · exact le_max_left x (listMaxI ys)
    · exact le_trans (ih h) (le_max_right y (listMaxI ys))

theorem listMaxI_attained {xs : List Int} (h : -1 < listMaxI xs) :
    listMaxI xs ∈ xs := by
  induction xs with
  | nil => exact absurd h (by simp [listMaxI])
  | cons x xs ih =>
    simp only [listMaxI] at h ⊢
    rcases max_choice x (listMaxI xs) with hc | hc
    · rw [hc]
      exact List.mem_cons_self x xs
    · rw [hc] at h ⊢
      exact List.mem_cons_of_mem x (ih h)

theorem inner_fold_snd {tl tag : List Char} (kws : List (List Char)) :
    ∀ acc : Option (List Char) × Int, -1 ≤ acc.2 →
    (kws.foldl
      (fun a kw => if rfindI kw tl > a.2 then (some tag, rfindI kw tl) else a)
      acc).2 = max acc.2 (listMaxI (kws.map (fun kw => rfindI kw tl))) := by
  induction kws with
  | nil =>
    intro acc hacc
    simp only [List.foldl_nil, List.map_nil, listMaxI]
    exact (max_eq_left hacc).symm
  | cons kw kws ih =>
    intro acc hacc
    simp only [List.foldl_cons, List.map_cons, listMaxI]
    split
    next hlt =>
      have h2 : -1 ≤ rfindI kw tl := rfindI_ge kw tl
      rw [ih (some tag, rfindI kw tl) h2]
      simp only
      rw [← max_assoc]
      have : max acc.2 (rfindI kw tl) = rfindI kw tl := max_eq_right (le_of_lt hlt)
      rw [this]
    next hge =>
      rw [ih acc hacc, ← max_assoc]
      have : max acc.2 (rfindI kw tl) = acc.2 := max_eq_left (not_lt.mp hge)
      rw [this]

theorem inner_fold_fst {tl tag : List Char} (kws : List (List Char)) :
    ∀ acc : Option (List Char) × Int, -1 ≤ acc.2 →
    (kws.foldl
      (fun a kw => if rfindI kw tl > a.2 then (some tag, rfindI kw tl) else a)
      acc).1 =
      (if listMaxI (kws.map (fun kw => rfindI kw tl)) > acc.2 then some tag
       else acc.1) := by
  induction kws with
  | nil =>
    intro acc hacc
    simp only [List.foldl_nil, List.map_nil, listMaxI]
    rw [if_neg (by omega)]
  | cons kw kws ih =>
    intro acc hacc
    simp only [List.foldl_cons, List.map_cons, listMaxI]
    split
    next hlt =>
      rw [ih (some tag, rfindI kw tl) (rfindI_ge kw tl)]
      simp only
      have hcond : max (rfindI kw tl) (listMaxI (kws.map (fun kw => rfindI kw tl))) > acc.2 :=
        lt_of_lt_of_le hlt (le_max_left _ _)
      rw [if_pos hcond]
      split
      next => rfl
      next => rfl
    next hge =>
      rw [ih acc hacc]
      rcases lt_or_le acc.2 (listMaxI (kws.map (fun kw => rfindI kw tl))) with hc | hc
      · rw [if_pos hc, if_pos (lt_of_lt_of_le hc (le_max_right _ _))]
      · have hmaxle : max (rfindI kw tl) (listMaxI (kws.map (fun kw => rfindI kw tl))) ≤ acc.2 :=
          max_le (not_lt.mp hge) hc
        rw [if_neg (not_lt.mpr hc), if_neg (not_lt.mpr hmaxle)]

theorem bmStep_snd {tl : List Char} (acc : Option (List Char) × Int)
    (pr : List Char × List (List Char)) (hacc : -1 ≤ acc.2) :
    (bmStep tl acc pr).2 = max acc.2 (pairMaxIdx tl pr) :=
  inner_fold_snd pr.2 acc hacc

theorem bmStep_fst {tl : List Char} (acc : Option (List Char) × Int)
    (pr : List Char × List (List Char)) (hacc : -1 ≤ acc.2) :
    (bmStep tl acc pr).1 =
      (if pairMaxIdx tl pr > acc.2 then some pr.1 else acc.1) :=
  inner_fold_fst pr.2 acc hacc

theorem outer_fold_spec {tl : List Char} (ps : List (List Char × List (List Char))) :
    ∀ acc : Option (List Char) × Int, -1 ≤ acc.2 →
    (listMaxI (ps.map (pairMaxIdx tl)) ≤ acc.2 → ps.foldl (bmStep tl) acc = acc) ∧
    (acc.2 < listMaxI (ps.map (pairMaxIdx tl)) →
      ∃ pre pr post, ps = pre ++ pr :: post ∧
        (ps.foldl (bmStep tl) acc).1 = some pr.1 ∧
        pairMaxIdx tl pr = listMaxI (ps.map (pairMaxIdx tl)) ∧
        ∀ q ∈ pre, pairMaxIdx tl q < listMaxI (ps.map (pairMaxIdx tl))) := by
  induction ps with
  | nil =>
    intro acc hacc
    refine ⟨fun _ => rfl, fun hlt => ?_⟩
    exact absurd hlt (by simp only [List.map_nil, listMaxI]; omega)
  | cons pr ps ih =>
    intro acc hacc
    have hsnd : (bmStep tl acc pr).2 = max acc.2 (pairMaxIdx tl pr) :=
      bmStep_snd acc pr hacc
    have hfst : (bmStep tl acc pr).1 =
        (if pairMaxIdx tl pr > acc.2 then some pr.1 else acc.1) :=
      bmStep_fst acc pr hacc
    have hacc' : -1 ≤ (bmStep tl acc pr).2 := by
      rw [hsnd]
      exact le_trans hacc (le_max_left _ _)
    constructor
    · intro hle
      simp only [List.map_cons, listMaxI, max_le_iff] at hle
      have hq : bmStep tl acc pr = acc := by
        have h1 : (bmStep tl acc pr).1 = acc.1 := by
          rw [hfst, if_neg (not_lt.mpr hle.1)]
        have h2 : (bmStep tl acc pr).2 = acc.2 := by
          rw [hsnd]
          exact max_eq_left hle.1
        exact Prod.ext h1 h2
      simp only [List.foldl_cons, hq]
      exact (ih acc hacc).1 hle.2
    · intro hlt
      simp only [List.map_cons, listMaxI] at hlt ⊢
      simp only [List.foldl_cons]
      rcases le_or_lt (listMaxI (ps.map (pairMaxIdx tl))) (bmStep tl acc pr).2 with hsub | hsub
      · -- the tail never improves: the head pair is the winner
        have hstop : ps.foldl (bmStep tl) (bmStep tl acc pr) = bmStep tl acc pr :=
          ((ih (bmStep tl acc pr) hacc').1) hsub
        have hp0 : acc.2 < pairMaxIdx tl pr := by
          by_contra hc
          push_neg at hc
          rw [hsnd, max_eq_left hc] at hsub
          have : max (pairMaxIdx tl pr) (listMaxI (ps.map (pairMaxIdx tl))) ≤ acc.2 :=
            max_le hc hsub
          omega
        have hM : max (pairMaxIdx tl pr) (listMaxI (ps.map (pairMaxIdx tl)))
            = pairMaxIdx tl pr := by
          rw [hsnd, max_eq_right (le_of_lt hp0)] at hsub
          exact max_eq_left hsub
        refine ⟨[], pr, ps, rfl, ?_, hM.symm ▸ rfl, by simp⟩
        rw [hstop, hfst, if_pos hp0]
      · -- some tail pair strictly improves: recurse
        obtain ⟨pre, pr', post, hsplit, hres, hmax', hpre⟩ :=
          ((ih (bmStep tl acc pr) hacc').2) hsub
        have hMr : max (pairMaxIdx tl pr) (listMaxI (ps.map (pairMaxIdx tl)))
            = listMaxI (ps.map (pairMaxIdx tl)) := by
          refine max_eq_right (le_of_lt ?_)
          calc pairMaxIdx tl pr ≤ (bmStep tl acc pr).2 := by
                rw [hsnd]; exact le_max_right _ _
            _ < _ := hsub
        refine ⟨pr :: pre, pr', post, by rw [hsplit, List.cons_append], ?_, ?_, ?_⟩
        · exact hres
        · rw [hMr]; exact hmax'
        · intro q hq
          rw [hMr]
          rcases List.mem_cons.mp hq with rfl | hq
          · calc pairMaxIdx tl q ≤ (bmStep tl acc q).2 := by
                  rw [hsnd]; exact le_max_right _ _
              _ < _ := hsub
          · exact hpre q hq

/-- Claim C2: with no departure override and at least one keyword occurring,
    the classifier returns the tag of the pair holding a keyword whose last
    occurrence index equals the table-wide maximum; every pair's best index is
    bounded by that maximum (so the winning index is independent of table
    order), and every pair scanned earlier than the winning pair has a
    strictly smaller best index (on a tie, the pair scanned first wins).  In
    particular the Yokosuka/South China Sea sentence classifies as
    "South China Sea". -/
theorem c2_rightmost_keyword_wins (t hp : List Char)
    (hdep : depScan (lower t) departure_patterns = none)
    (hmax : 0 ≤ tableMaxIdx (lower t)) :
    (∃ pre pr post, LOCATION_KEYWORDS = pre ++ pr :: post ∧
      categorize_location t hp = pr.1 ∧
      pairMaxIdx (lower t) pr = tableMaxIdx (lower t) ∧
      (∃ kw ∈ pr.2, rfindI kw (lower t) = tableMaxIdx (lower t)) ∧
      ∀ q ∈ pre, pairMaxIdx (lower t) q < tableMaxIdx (lower t)) ∧
    (∀ q ∈ LOCATION_KEYWORDS, pairMaxIdx (lower t) q ≤ tableMaxIdx (lower t)) ∧
    categorize_location
        "was in Yokosuka, then transited the South China Sea".data
        "ATLANTIC".data
      = "South China Sea".data := by
  refine ⟨?_, ?_, by decide⟩
  · have hlt : ((none : Option (List Char)), (-1 : Int)).2
        < listMaxI (LOCATION_KEYWORDS.map (pairMaxIdx (lower t))) := by
      simp only [tableMaxIdx] at hmax
      simp only
      omega
    obtain ⟨pre, pr, post, hsplit, hres, hmax', hpre⟩ :=
      ((outer_fold_spec LOCATION_KEYWORDS ((none : Option (List Char)), (-1 : Int))
        (by simp)).2) hlt
    have hbm : bestMatch (lower t) = some pr.1 := by
      unfold bestMatch
      exact hres
    have hcat : categorize_location t hp = pr.1 := by
      simp only [categorize_location, hdep, hbm]
    have hattain : ∃ kw ∈ pr.2, rfindI kw (lower t) = tableMaxIdx (lower t) := by
      have h1 : -1 < pairMaxIdx (lower t) pr := by
        rw [hmax']
        simp only [tableMaxIdx] at hmax ⊢
        omega
      have h2 := listMaxI_attained h1
      simp only [pairMaxIdx] at h2
      obtain ⟨kw, hkw, hkweq⟩ := List.mem_map.mp h2
      refine ⟨kw, hkw, ?_⟩
      rw [hkweq]
      exact hmax'
    exact ⟨pre, pr, post, hsplit, hcat, hmax', hattain, hpre⟩
  · intro q hq
    simp only [tableMaxIdx]
    exact le_listMaxI (List.mem_map.mpr ⟨q, hq, rfl⟩)

/-- Witness for C2 at the claim's example sentence. -/
theorem c2_witness :
    depScan (Usn.lower "was in Yokosuka, then transited the South China Sea".data)
        Usn.departure_patterns = none ∧
    0 ≤ Usn.tableMaxIdx
        (Usn.lower "was in Yokosuka, then transited the South China Sea".data) ∧
    ((∃ pre pr post, Usn.LOCATION_KEYWORDS = pre ++ pr :: post ∧
        Usn.categorize_location
            "was in Yokosuka, then transited the South China Sea".data
            "ATLANTIC".data = pr.1 ∧
        Usn.pairMaxIdx
            (Usn.lower "was in Yokosuka, then transited the South China Sea".data)
            pr =
          Usn.tableMaxIdx
            (Usn.lower "was in Yokosuka, then transited the South China Sea".data) ∧
        (∃ kw ∈ pr.2, Usn.rfindI kw
            (Usn.lower "was in Yokosuka, then transited the South China Sea".data) =
          Usn.tableMaxIdx
            (Usn.lower "was in Yokosuka, then transited the South China Sea".data)) ∧
        ∀ q ∈ pre, Usn.pairMaxIdx
            (Usn.lower "was in Yokosuka, then transited the South China Sea".data) q <
          Usn.tableMaxIdx
            (Usn.lower "was in Yokosuka, then transited the South China Sea".data)) ∧
     (∀ q ∈ Usn.LOCATION_KEYWORDS, Usn.pairMaxIdx
            (Usn.lower "was in Yokosuka, then transited the South China Sea".data) q ≤
          Usn.tableMaxIdx
            (Usn.lower "was in Yokosuka, then transited the South China Sea".data)) ∧
     Usn.categorize_location
        "was in Yokosuka, then transited the South China Sea".data
        "ATLANTIC".data
      = "South China Sea".data) :=
  ⟨by decide, by decide,
   c2_rightmost_keyword_wins
     "was in Yokosuka, then transited the South China Sea".data
     "ATLANTIC".data (by decide) (by decide)⟩

/-! ### Claim C3: the departure override

Key fact: at most one departure phrase can occur in the text with no location
keyword after its last occurrence.  Each phrase is `"departed " ++ port` where
`port` is itself a table keyword, phrases never contain `"departed "` at a
positive offset, and no phrase is a prefix of another; so of two distinct
occurring phrases, one's port keyword must lie after the other's occurrence. -/

/-- The condition under which the departure loop accepts a phrase. -/
def depCond (tl phrase : List Char) : Prop :=
  substr phrase tl = true ∧
  hasSubsequentLoc (tl.drop ((rfind phrase tl).getD 0 + phrase.length)) = false

theorem dep_no_internal :
    ∀ pr ∈ departure_patterns, ∀ j, j < pr.1.length → 1 ≤ j →
      ("departed ".data).isPrefixOf (pr.1.drop j) = false := by decide

theorem dep_phrases_no_pfx :
    ∀ p ∈ departure_patterns, ∀ q ∈ departure_patterns, p.1 ≠ q.1 →
      p.1.isPrefixOf q.1 = false := by decide

theorem dep_phrase_det :
    ∀ p ∈ departure_patterns, ∀ q ∈ departure_patterns, p.1 = q.1 →
      p.2 = q.2 := by decide

theorem hasSubsequentLoc_false {rem : List Char}
    (h : hasSubsequentLoc rem = false) :
    ∀ pa ∈ LOCATION_KEYWORDS, ∀ kw ∈ pa.2, substr kw rem = false := by
  intro pa hpa kw hkw
  unfold hasSubsequentLoc at h
  rw [List.any_eq_false] at h
  have h1 : (pa.2.any (fun kw => substr kw rem)) = false :=
    Bool.eq_false_iff.mpr (h pa hpa)
  rw [List.any_eq_false] at h1
  exact Bool.eq_false_iff.mpr (h1 kw hkw)

theorem drop_append_of_le {l₁ l₂ : List Char} {n : Nat} (h : n ≤ l₁.length) :
    (l₁ ++ l₂).drop n = l₁.drop n ++ l₂ := by
  rw [List.drop_append_eq_append_drop, Nat.sub_eq_zero_of_le h, List.drop_zero]

theorem kw_after_dep {tl P' s' kw : List Char} {i' : Nat}
    (hshape : P' = "departed ".data ++ kw)
    (h2 : tl.drop i' = P' ++ s') :
    tl.drop (i' + 9) = kw ++ s' := by
  have h3 : (tl.drop i').drop 9 = tl.drop (i' + 9) := List.drop_drop 9 i' tl
  rw [← h3, h2, hshape, List.append_assoc,
    show (9 : Nat) = ("departed ".data).length from rfl, List.drop_left]

theorem dep_occ_bound {tl P s P' s' kw' : List Char} {i i' : Nat}
    {pair' : List Char × List (List Char)}
    (_h1 : tl.drop i = P ++ s)
    (hnosub : ∀ pa ∈ LOCATION_KEYWORDS, ∀ kw ∈ pa.2,
      substr kw (tl.drop (i + P.length)) = false)
    (hpair' : pair' ∈ LOCATION_KEYWORDS) (hkw' : kw' ∈ pair'.2)
    (hshape : P' = "departed ".data ++ kw')
    (h2 : tl.drop i' = P' ++ s') :
    i' + 9 < i + P.length := by
  by_contra hc
  push_neg at hc
  have hocc : tl.drop (i' + 9) = kw' ++ s' := kw_after_dep hshape h2
  have hdd : (tl.drop (i + P.length)).drop (i' + 9 - (i + P.length))
      = tl.drop (i' + 9) := by
    rw [List.drop_drop]
    congr 1
    omega
  have hsubstr : substr kw' (tl.drop (i + P.length)) = true := by
    refine substr_of_pfx_drop (i := i' + 9 - (i + P.length)) ?_
    rw [hdd, hocc]
    exact pfx_append kw' s'
  rw [hnosub pair' hpair' kw' hkw'] at hsubstr
  cases hsubstr

theorem depCond_unique {tl P P' locP locP' : List Char}
    (hPm : (P, locP) ∈ departure_patterns)
    (hP'm : (P', locP') ∈ departure_patterns)
    (hc : depCond tl P) (hc' : depCond tl P') : P = P' := by
  obtain ⟨hsub, hnosub0⟩ := hc
  obtain ⟨hsub', hnosub0'⟩ := hc'
  obtain ⟨i, hi⟩ := Option.isSome_iff_exists.mp (rfind_isSome_of_substr hsub)
  obtain ⟨i', hi'⟩ := Option.isSome_iff_exists.mp (rfind_isSome_of_substr hsub')
  rw [hi] at hnosub0
  rw [hi'] at hnosub0'
  simp only [Option.getD_some] at hnosub0 hnosub0'
  have hnosub := hasSubsequentLoc_false hnosub0
  have hnosub' := hasSubsequentLoc_false hnosub0'
  obtain ⟨s, hs⟩ := rfind_some hi
  obtain ⟨s', hs'⟩ := rfind_some hi'
  obtain ⟨pair, hpair, kw, hkw, hshape⟩ := dep_phrase_has_kw (P, locP) hPm
  obtain ⟨pair', hpair', kw', hkw', hshape'⟩ := dep_phrase_has_kw (P', locP') hP'm
  simp only at hshape hshape'
  have b1 : i' + 9 < i + P.length :=
    dep_occ_bound hs hnosub hpair' hkw' hshape' hs'
  have b2 : i + 9 < i' + P'.length :=
    dep_occ_bound hs' hnosub' hpair hkw hshape hs
  rcases Nat.lt_trichotomy i i' with hlt | heq | hgt
  · exfalso
    have hdd : tl.drop i' = (P.drop (i' - i)) ++ s := by
      have h1 : (tl.drop i).drop (i' - i) = tl.drop i' := by
        rw [List.drop_drop]
        congr 1
        omega
      rw [← h1, hs, drop_append_of_le (by omega)]
    have heq2 : "departed ".data ++ (kw' ++ s') = P.drop (i' - i) ++ s := by
      rw [← List.append_assoc, ← hshape', ← hs', hdd]
    have hlen : ("departed ".data).length ≤ (P.drop (i' - i)).length := by
      rw [List.length_drop]
      have h9 : ("departed ".data).length = 9 := rfl
      omega
    have hdp := pfx_of_append_eq heq2 hlen
    have hint := dep_no_internal (P, locP) hPm (i' - i)
      (show i' - i < P.length by omega) (by omega)
    rw [hint] at hdp
    cases hdp
  · subst heq
    rw [hs] at hs'
    by_cases hpp : P = P'
    · exact hpp
    · exfalso
      rcases Nat.le_total P.length P'.length with hle | hle
      · have hpf := pfx_of_append_eq hs' hle
        have hnp := dep_phrases_no_pfx (P, locP) hPm (P', locP') hP'm hpp
        rw [hnp] at hpf
        cases hpf
      · have hpf := pfx_of_append_eq hs'.symm hle
        have hnp := dep_phrases_no_pfx (P', locP') hP'm (P, locP) hPm
          (fun hh => hpp hh.symm)
        rw [hnp] at hpf
        cases hpf
  · exfalso
    have hdd : tl.drop i = (P'.drop (i - i')) ++ s' := by
      have h1 : (tl.drop i').drop (i - i') = tl.drop i := by
        rw [List.drop_drop]
        congr 1
        omega
      rw [← h1, hs', drop_append_of_le (by omega)]
    have heq2 : "departed ".data ++ (kw ++ s) = P'.drop (i - i') ++ s' := by
      rw [← List.append_assoc, ← hshape, ← hs, hdd]
    have hlen : ("departed ".data).length ≤ (P'.drop (i - i')).length := by
      rw [List.length_drop]
      have h9 : ("departed ".data).length = 9 := rfl
      omega
    have hdp := pfx_of_append_eq heq2 hlen
    have hint := dep_no_internal (P', locP') hP'm (i - i')
      (show i - i' < P'.length by omega) (by omega)
    rw [hint] at hdp
    cases hdp

theorem depScan_eq_some {tl : List Char} :
    ∀ ps : List (List Char × List Char), ∀ phrase loc : List Char,
      (phrase, loc) ∈ ps →
      depCond tl phrase →
      (∀ p ∈ ps, depCond tl p.1 → p.1 = phrase) →
      (∀ p ∈ ps, ∀ q ∈ ps, p.1 = q.1 → p.2 = q.2) →
      depScan tl ps = some loc := by
  intro ps
  induction ps with
  | nil =>
    intro phrase loc h
    cases h
  | cons pr rest ih =>
    intro phrase loc hmem hcond huniq hdet
    obtain ⟨Q, lq⟩ := pr
    simp only [depScan]
    by_cases hQ : substr Q tl = true
    · rw [if_pos hQ]
      by_cases hsb : hasSubsequentLoc
          (tl.drop ((rfind Q tl).getD 0 + Q.length)) = true
      · rw [if_pos hsb]
        have hQne : Q ≠ phrase := by
          intro hqp
          subst hqp
          rw [hcond.2] at hsb
          cases hsb
        have hmem' : (phrase, loc) ∈ rest := by
          rcases List.mem_cons.mp hmem with heq | h
          · exfalso
            injection heq with h1 h2
            exact hQne h1.symm
          · exact h
        refine ih phrase loc hmem' hcond ?_ ?_
        · exact fun p hp hc => huniq p (List.mem_cons_of_mem _ hp) hc
        · exact fun p hp q hq =>
            hdet p (List.mem_cons_of_mem _ hp) q (List.mem_cons_of_mem _ hq)
      · rw [if_neg hsb]
        have hcondQ : depCond tl Q := ⟨hQ, Bool.eq_false_iff.mpr hsb⟩
        have hQp : Q = phrase := huniq (Q, lq) (List.mem_cons_self _ _) hcondQ
        have hlq : lq = loc :=
          hdet (Q, lq) (List.mem_cons_self _ _) (phrase, loc) hmem hQp
        rw [hlq]
    · rw [if_neg hQ]
      have hQne : Q ≠ phrase := fun hqp => hQ (hqp ▸ hcond.1)
      have hmem' : (phrase, loc) ∈ rest := by
        rcases List.mem_cons.mp hmem with heq | h
        · exfalso
          injection heq with h1 h2
          exact hQne h1.symm
        · exact h
      refine ih phrase loc hmem' hcond ?_ ?_
      · exact fun p hp hc => huniq p (List.mem_cons_of_mem _ hp) hc
      · exact fun p hp q hq =>
          hdet p (List.mem_cons_of_mem _ hp) q (List.mem_cons_of_mem _ hq)

/-- Claim C3: if a departure phrase occurs in the lower-cased sentence and no
    keyword of the keyword table occurs after its last occurrence, the
    classifier immediately returns that phrase's mapped ocean/region tag
    (short-circuiting the rightmost-match rule); in particular
    "... departed norfolk on Jan 5" yields "Atlantic Ocean", not
    "Norfolk / Portsmouth". -/
theorem c3_departure_override_fires (t hp phrase loc : List Char)
    (hmem : (phrase, loc) ∈ departure_patterns)
    (hsub : substr phrase (lower t) = true)
    (hnosub : hasSubsequentLoc
      ((lower t).drop ((rfind phrase (lower t)).getD 0 + phrase.length))
      = false) :
    categorize_location t hp = loc ∧
    categorize_location "the ship departed norfolk on Jan 5".data
        "ATLANTIC".data
      = "Atlantic Ocean".data := by
  refine ⟨?_, by decide⟩
  have hcond : depCond (lower t) phrase := ⟨hsub, hnosub⟩
  have huniq : ∀ p ∈ departure_patterns, depCond (lower t) p.1 → p.1 = phrase := by
    intro p hp' hc
    obtain ⟨P, lP⟩ := p
    exact depCond_unique hp' hmem hc hcond
  have hds : depScan (lower t) departure_patterns = some loc :=
    depScan_eq_some departure_patterns phrase loc hmem hcond huniq dep_phrase_det
  simp only [categorize_location, hds]

/-- Witness for C3 at the claim's example sentence and the
    "departed norfolk" pattern. -/
theorem c3_witness :
    ("departed norfolk".data, "Atlantic Ocean".data) ∈ Usn.departure_patterns ∧
    substr "departed norfolk".data
      (Usn.lower "the ship departed norfolk on Jan 5".data) = true ∧
    Usn.hasSubsequentLoc
      ((Usn.lower "the ship departed norfolk on Jan 5".data).drop
        ((rfind "departed norfolk".data
            (Usn.lower "the ship departed norfolk on Jan 5".data)).getD 0
          + ("departed norfolk".data).length)) = false ∧
    (Usn.categorize_location "the ship departed norfolk on Jan 5".data
        "ATLANTIC".data = "Atlantic Ocean".data ∧
     Usn.categorize_location "the ship departed norfolk on Jan 5".data
        "ATLANTIC".data = "Atlantic Ocean".data) :=
  ⟨by decide, by decide, by decide,
   c3_departure_override_fires "the ship departed norfolk on Jan 5".data
     "ATLANTIC".data "departed norfolk".data "Atlantic Ocean".data
     (by decide) (by decide) (by decide)⟩

/-! ### Claim C7 (amended): scan semantics of the Date Extractor -/

theorem digitsTake_append {l ds r : List Char}
    (h : digitsTake l = some (ds, r)) : l = ds ++ r := by
  unfold digitsTake at h
  split at h
  next => cases h
  next d1 rtail =>
    split at h
    next hd1 =>
      split at h
      next d2 r2 =>
        split at h
        next hd2 =>
          cases h
          rfl
        next hd2 =>
          cases h
          rfl
      next =>
        cases h
        rfl
    next => cases h

theorem dotSplit_append (l : List Char) :
    (dotSplit l).1 ++ (dotSplit l).2 = l := by
  unfold dotSplit
  split
  next => rfl
  next => rfl

theorem wsDigits_append {l wd r : List Char}
    (h : wsDigits l = some (wd, r)) : l = wd ++ r := by
  unfold wsDigits at h
  split at h
  next => cases h
  next hne =>
    split at h
    next ds rest2 heq =>
      cases h
      have hd := digitsTake_append heq
      calc l = l.takeWhile pyWs ++ l.dropWhile pyWs :=
            (List.takeWhile_append_dropWhile _ _).symm
        _ = _ := by rw [hd, List.append_assoc]
    next => cases h

theorem tailMatch_append {rest tm r : List Char}
    (h : tailMatch rest = some (tm, r)) : rest = tm ++ r := by
  unfold tailMatch at h
  split at h
  next wd r2 heq =>
    cases h
    have hw := wsDigits_append heq
    have h2 : rest.dropWhile asciiAlpha
        = (dotSplit (rest.dropWhile asciiAlpha)).1
          ++ (dotSplit (rest.dropWhile asciiAlpha)).2 :=
      (dotSplit_append _).symm
    calc rest = rest.takeWhile asciiAlpha ++ rest.dropWhile asciiAlpha :=
          (List.takeWhile_append_dropWhile _ _).symm
      _ = _ := by
          conv_lhs => rw [h2]
          rw [hw]
          simp [List.append_assoc]
  next => cases h

theorem matchDateAt_append {l m r : List Char}
    (h : matchDateAt l = some (m, r)) : l = m ++ r := by
  unfold matchDateAt at h
  split at h
  next a b c rest =>
    split at h
    next hmo =>
      split at h
      next tm r' heq =>
        cases h
        have := tailMatch_append heq
        simp only [List.cons_append]
        rw [← this]
      next => cases h
    next => cases h
  next => cases h

theorem matchDateAt_shape {l m r : List Char}
    (h : matchDateAt l = some (m, r)) :
    ∃ a b c ms, m = a :: b :: c :: ms ∧ monthOk a b c = true := by
  unfold matchDateAt at h
  split at h
  next a b c rest =>
    split at h
    next hmo =>
      split at h
      next tm r' heq =>
        cases h
        exact ⟨a, b, c, tm, rfl, hmo⟩
      next => cases h
    next => cases h
  next => cases h

theorem matchDateAt_r_lt {l m r : List Char}
    (h : matchDateAt l = some (m, r)) : r.length < l.length := by
  obtain ⟨a, b, c, ms, hm, -⟩ := matchDateAt_shape h
  have hl := matchDateAt_append h
  rw [hl, List.length_append, hm]
  simp only [List.length_cons]
  omega

theorem match_ne_dateUnspec {l m r : List Char}
    (h : matchDateAt l = some (m, r)) : m ≠ dateUnspec := by
  obtain ⟨a, b, c, ms, hm, hmo⟩ := matchDateAt_shape h
  intro hd
  rw [hd] at hm
  have hdu : dateUnspec = 'D' :: 'a' :: 't' :: "e Unspecified".data := by decide
  rw [hdu] at hm
  injection hm with e1 hm
  injection hm with e2 hm
  injection hm with e3 hm
  subst e1
  subst e2
  subst e3
  exact absurd hmo (by decide)

theorem findAllAux_nil_of_no_match {l : List Char}
    (h : ∀ i, matchDateAt (l.drop i) = none) :
    ∀ fuel, findAllAux fuel l = [] := by
  induction l with
  | nil =>
    intro fuel
    cases fuel <;> rfl
  | cons c cs ih =>
    intro fuel
    cases fuel with
    | zero => rfl
    | succ m =>
      have h0 : matchDateAt (c :: cs) = none := by simpa using h 0
      simp only [findAllAux, h0]
      exact ih (fun i => by simpa using h (i + 1)) m

theorem findAllAux_no_match_of_nil :
    ∀ fuel : Nat, ∀ l : List Char, l.length ≤ fuel →
      findAllAux fuel l = [] → ∀ i, matchDateAt (l.drop i) = none := by
  intro fuel
  induction fuel with
  | zero =>
    intro l hl _ i
    have : l = [] := List.length_eq_zero.mp (Nat.le_zero.mp hl)
    subst this
    rw [List.drop_nil]
    rfl
  | succ fuel ih =>
    intro l hl hnil i
    cases l with
    | nil =>
      rw [List.drop_nil]
      rfl
    | cons c cs =>
      cases hmt : matchDateAt (c :: cs) with
      | some pr =>
        obtain ⟨m0, r0⟩ := pr
        rw [findAllAux, hmt] at hnil
        cases hnil
      | none =>
        rw [findAllAux, hmt] at hnil
        cases i with
        | zero => simpa using hmt
        | succ j =>
          have hcs : cs.length ≤ fuel := by
            simp only [List.length_cons] at hl
            omega
          simpa using ih cs hcs hnil j

theorem drop_append_left_all {l₁ l₂ : List Char} (k : Nat) :
    (l₁ ++ l₂).drop (l₁.length + k) = l₂.drop k := by
  rw [← List.drop_drop, List.drop_left]

theorem findAllAux_last :
    ∀ fuel : Nat, ∀ l : List Char, l.length ≤ fuel →
      ∀ m, (findAllAux fuel l).getLast? = some m →
      ∃ i r, matchDateAt (l.drop i) = some (m, r) ∧
        ∀ j, matchDateAt (r.drop j) = none := by
  intro fuel
  induction fuel with
  | zero =>
    intro l hl m hm
    simp [findAllAux] at hm
  | succ fuel ih =>
    intro l hl m hm
    cases l with
    | nil => simp [findAllAux] at hm
    | cons c cs =>
      cases hmt : matchDateAt (c :: cs) with
      | none =>
        simp only [findAllAux, hmt] at hm
        have hcs : cs.length ≤ fuel := by
          simp only [List.length_cons] at hl
          omega
        obtain ⟨i, r, hmatch, hrest⟩ := ih cs hcs m hm
        exact ⟨i + 1, r, by simpa using hmatch, hrest⟩
      | some pr =>
        obtain ⟨m0, r0⟩ := pr
        simp only [findAllAux, hmt] at hm
        have hr0 : r0.length ≤ fuel := by
          have h1 : r0.length < (c :: cs).length := matchDateAt_r_lt hmt
          omega
        cases hrest : findAllAux fuel r0 with
        | nil =>
          rw [hrest] at hm
          simp only [List.getLast?_singleton, Option.some.injEq] at hm
          subst hm
          refine ⟨0, r0, by simpa using hmt, ?_⟩
          exact findAllAux_no_match_of_nil fuel r0 hr0 hrest
        | cons x xs =>
          rw [hrest] at hm
          rw [List.getLast?_cons_cons] at hm
          rw [← hrest] at hm
          obtain ⟨i', r', hmatch, hnone⟩ := ih r0 hr0 m hm
          refine ⟨m0.length + i', r', ?_, hnone⟩
          have happ : (c : Char) :: cs = m0 ++ r0 := matchDateAt_append hmt
          rw [happ, drop_append_left_all]
          exact hmatch

/-- Claim C7 (amended): the Date Extractor returns the last match of the
    left-to-right non-overlapping scan — a string matching the pattern at some
    position, with no further match starting at or after its end; it returns
    the sentinel "Date Unspecified" exactly when no position of the sentence
    starts a match, and exactly in the sentinel case the record-assembling
    caller substitutes the StatusResult's year for the displayed date. -/
theorem c7_amended_scan_semantics (t : List Char) :
    (extract_date t = dateUnspec ↔ ∀ i, matchDateAt (t.drop i) = none) ∧
    (∀ s, extract_date t = s → s ≠ dateUnspec →
      ∃ i r, matchDateAt (t.drop i) = some (s, r) ∧
        ∀ j, matchDateAt (r.drop j) = none) ∧
    (∀ y, extract_date t = dateUnspec → assembleDate t y = y) ∧
    (∀ y, extract_date t ≠ dateUnspec → assembleDate t y = extract_date t) := by
  refine ⟨⟨?_, ?_⟩, ?_, ?_, ?_⟩
  · intro hs
    cases hL : (findAllDates t).getLast? with
    | none =>
      have hnil : findAllDates t = [] := List.getLast?_eq_none_iff.mp hL
      exact findAllAux_no_match_of_nil t.length t (Nat.le_refl _) hnil
    | some m =>
      exfalso
      have hm : extract_date t = m := by
        unfold extract_date
        rw [hL]
      rw [hs] at hm
      obtain ⟨i, r, hmatch, -⟩ :=
        findAllAux_last t.length t (Nat.le_refl _) m hL
      exact match_ne_dateUnspec hmatch hm.symm
  · intro hno
    have hnil : findAllDates t = [] :=
      findAllAux_nil_of_no_match hno t.length
    unfold extract_date
    rw [show (findAllDates t).getLast? = none from
      List.getLast?_eq_none_iff.mpr hnil]
  · intro s hs hsne
    cases hL : (findAllDates t).getLast? with
    | none =>
      exfalso
      apply hsne
      rw [← hs]
      unfold extract_date
      rw [hL]
    | some m =>
      have hm : extract_date t = m := by
        unfold extract_date
        rw [hL]
      rw [hs] at hm
      subst hm
      exact findAllAux_last t.length t (Nat.le_refl _) s hL
  · intro y h
    simp [assembleDate, h]
  · intro y h
    simp [assembleDate, h]

/-- Witness for the amended C7 at a concrete sentence: "Jan. 8" is the scan's
    last match and nothing after it matches. -/
theorem c7_amended_witness :
    Usn.extract_date "Moored at the pier since Jan. 8".data = "Jan. 8".data ∧
    ("Jan. 8".data ≠ Usn.dateUnspec) ∧
    ∃ i r, Usn.matchDateAt (("Moored at the pier since Jan. 8".data).drop i)
        = some ("Jan. 8".data, r) ∧
      ∀ j, Usn.matchDateAt (r.drop j) = none :=
  ⟨by decide, by decide,
   (c7_amended_scan_semantics "Moored at the pier since Jan. 8".data).2.1
     "Jan. 8".data (by decide) (by decide)⟩

end Usn

